import Mathlib

/-!
# Verification of the Nickel FFI marshaling layer (`src/rust/nickel-jl/src/lib.rs`)

This file gives a shallow embedding of the marshaling layer of the
`nickel-jl` Rust crate: the binary value encoder `encode_term`, the two
boundary entry points `nickel_eval_string` / `nickel_eval_native`, and the
thread-local error slot (`set_error` / `nickel_get_error`).

Modelling conventions:
* Strings that cross the encoder are modelled by their UTF-8 byte
  sequences (`List ℕ`), since the Rust encoder only ever consumes
  `as_bytes()` views.
* The arbitrary-precision Nickel `Number` (a `malachite` `Rational`) is
  modelled by `ℚ`.
* Rust `f64` values reachable from rounding a rational are modelled by
  `F64`: sign/magnitude mantissa-exponent pairs (value `± m · 2^e`) plus
  the two infinities.  Rounding a rational never produces a NaN, so no NaN
  constructor is needed; the NaN-propagating behaviour of `f64::fract` on
  infinities is folded into `f64_fract_zero`.
* Machine-integer casts are explicit: `as u32` is `% 2^32`, `f as i64`
  is truncation plus saturation (`f64_to_i64_sat`), two's complement is
  `% 2^64`.
* Fallible Rust code returning `Result<T, String>` becomes
  `Except String T`; the C boundary's null pointers / null buffers become
  `Option`.
-/

/-- Little-endian byte encoding of a natural number on `len` bytes
(the Lean counterpart of Rust's `to_le_bytes` on an unsigned value;
higher bits beyond `len` bytes are discarded, as a cast would). -/
def natToLeBytes : ℕ → ℕ → List ℕ
  | _, 0 => []
  | k, len + 1 => k % 256 :: natToLeBytes (k / 256) len

/-- Little-endian read-back of a byte list as an unsigned number. -/
def leBytesToNat : List ℕ → ℕ
  | [] => 0
  | b :: bs => b + 256 * leBytesToNat bs

/-- The 8 little-endian bytes of a signed 64-bit integer in two's
complement, as Rust's `i64::to_le_bytes` produces them. -/
def i64_to_le_bytes (v : ℤ) : List ℕ :=
  natToLeBytes (v % 2 ^ 64).toNat 8

/-- Reading 8 little-endian bytes as a signed 64-bit integer
(two's complement), as Rust's `i64::from_le_bytes` does. -/
def le_bytes_to_i64 (bs : List ℕ) : ℤ :=
  let u := leBytesToNat bs
  if u < 2 ^ 63 then (u : ℤ) else (u : ℤ) - 2 ^ 64

/-- A 64-bit IEEE-754 double, restricted to the values reachable by
rounding a rational: a finite sign/magnitude value `± mant · 2^expo`
(sign `true` = negative; `mant = 0` with sign `true` is `-0.0`), or an
infinity.  `roundF64` always produces `mant < 2^53` and
`-1074 ≤ expo ≤ 971`, the IEEE-754 binary64 range. -/
inductive F64 where
  | fin (sign : Bool) (mant : ℕ) (expo : ℤ)
  | inf
  | neginf
deriving DecidableEq

/-- Fuel-driven floor of `log₂` on naturals (fuel `n` suffices for input
`n`); structural so that it computes by kernel reduction. -/
def natLog2Aux : ℕ → ℕ → ℕ
  | 0, _ => 0
  | fuel + 1, n => if 2 ≤ n then natLog2Aux fuel (n / 2) + 1 else 0

/-- `natLog2 n = ⌊log₂ n⌋` for `n ≥ 1` (and `0` at `0`). -/
def natLog2 (n : ℕ) : ℕ := natLog2Aux n n

/-- Round the fraction `p / q` (with `q > 0`) to the nearest natural,
ties to even — the rounding used by `RoundingMode::Nearest`. -/
def rneNat (p q : ℕ) : ℕ :=
  let f := p / q
  let r := p % q
  if 2 * r < q then f
  else if q < 2 * r then f + 1
  else if f % 2 = 0 then f else f + 1

/-- `⌊log₂ (n / d)⌋` for positive naturals `n`, `d`, as an integer. -/
def ilog2Pair (n d : ℕ) : ℤ :=
  let k0 : ℤ := (natLog2 n : ℤ) - (natLog2 d : ℤ)
  if 0 ≤ k0 then
    if 2 ^ k0.toNat * d ≤ n then k0 else k0 - 1
  else
    if d ≤ n * 2 ^ (-k0).toNat then k0 else k0 - 1

/-- Round a rational to the nearest IEEE-754 binary64 value, ties to
even: the model of `f64::rounding_from(n, RoundingMode::Nearest)` from
`malachite` for a `Rational` input. -/
def roundF64 (q : ℚ) : F64 :=
  if q = 0 then .fin false 0 (-1074)
  else
    let s := decide (q < 0)
    let n := q.num.natAbs
    let d := q.den
    let e : ℤ := max (ilog2Pair n d - 52) (-1074)
    let m := if 0 ≤ e then rneNat n (d * 2 ^ e.toNat) else rneNat (n * 2 ^ (-e).toNat) d
    if m = 2 ^ 53 then
      if 971 < e + 1 then (if s then .neginf else .inf) else .fin s (2 ^ 52) (e + 1)
    else
      if 971 < e then (if s then .neginf else .inf) else .fin s m e

/-- The Rust test `f.fract() == 0.0`: true exactly on finite doubles with
integral value (`±0.0` included); false on infinities, whose `fract` is
NaN and therefore compares unequal to `0.0`. -/
def f64_fract_zero : F64 → Bool
  | .fin _ m e => if 0 ≤ e then true else decide (2 ^ (-e).toNat ∣ m)
  | .inf => false
  | .neginf => false

/-- `m₁ · 2^e₁ ≤ m₂ · 2^e₂` on magnitudes, computed on naturals. -/
def f64_mag_le (m1 : ℕ) (e1 : ℤ) (m2 : ℕ) (e2 : ℤ) : Bool :=
  if e1 ≤ e2 then m1 ≤ m2 * 2 ^ (e2 - e1).toNat
  else m1 * 2 ^ (e1 - e2).toNat ≤ m2

/-- IEEE-754 `<=` on the modelled doubles (`-0.0 ≤ 0.0 ≤ -0.0` both
hold, as in IEEE). -/
def f64_le : F64 → F64 → Bool
  | .neginf, _ => true
  | _, .inf => true
  | .inf, _ => false
  | _, .neginf => false
  | .fin s1 m1 e1, .fin s2 m2 e2 =>
    match s1, s2 with
    | false, false => f64_mag_le m1 e1 m2 e2
    | true, true => f64_mag_le m2 e2 m1 e1
    | true, false => true
    | false, true => m1 = 0 && m2 = 0

/-- The exact integer value of a finite integral double, if any. -/
def f64_as_int : F64 → Option ℤ
  | .fin s m e =>
    if 0 ≤ e then some ((if s then -1 else 1) * (m * 2 ^ e.toNat : ℕ))
    else if 2 ^ (-e).toNat ∣ m then some ((if s then -1 else 1) * (m / 2 ^ (-e).toNat : ℕ))
    else none
  | .inf => none
  | .neginf => none

/-- Rust's saturating cast `f as i64`: truncate toward zero, then clamp
into `[-2^63, 2^63 - 1]`. -/
def f64_to_i64_sat : F64 → ℤ
  | .fin s m e =>
    let t : ℕ := if 0 ≤ e then m * 2 ^ e.toNat else m / 2 ^ (-e).toNat
    let v : ℤ := if s then -(t : ℤ) else (t : ℤ)
    if v < -(2 ^ 63) then -(2 ^ 63)
    else if 2 ^ 63 - 1 < v then 2 ^ 63 - 1
    else v
  | .inf => 2 ^ 63 - 1
  | .neginf => -(2 ^ 63)

/-- The IEEE-754 binary64 bit pattern of a modelled double, as a 64-bit
unsigned value (sign bit 63, biased exponent bits 62–52, mantissa bits
51–0); meaningful on well-formed values as produced by `roundF64`. -/
def f64bits : F64 → ℕ
  | .inf => 0x7FF0000000000000
  | .neginf => 0xFFF0000000000000
  | .fin s m e =>
    let signbit := if s then 2 ^ 63 else 0
    if m < 2 ^ 52 then signbit + m
    else signbit + (e + 1075).toNat * 2 ^ 52 + (m - 2 ^ 52)

/-- The compile-time Rust constant `i64::MIN as f64`: the signed 64-bit
minimum rounded to the nearest double (exact: `-2^63`). -/
def i64_min_as_f64 : F64 := roundF64 (-9223372036854775808 : ℚ)

/-- The compile-time Rust constant `i64::MAX as f64`: the signed 64-bit
maximum rounded to the nearest double.  `2^63 - 1` is not representable;
it rounds up to `2^63`. -/
def i64_max_as_f64 : F64 := roundF64 (9223372036854775807 : ℚ)

/-- The fully evaluated Nickel value tree consumed by the encoder: the
`Term` variants of `nickel_lang_core` that `encode_term` matches on.
`record` carries the field list in the record's own iteration order, each
field name (UTF-8 bytes) paired with its optional bound value, mirroring
`record.fields` / `field.value`.  `other` stands for every remaining
variant with no encoding rule (functions, opaque values, …) and carries
the `{:?}` debug rendering the Rust code would interpolate into its error
message. -/
inductive Term where
  | null
  | bool (b : Bool)
  | num (n : ℚ)
  | str (s : List ℕ)
  | arr (xs : List Term)
  | record (fields : List (List ℕ × Option Term))
  | enum (tag : List ℕ)
  | enumVariant (tag : List ℕ) (arg : Term)
  | other (debugRepr : String)

mutual

/-- The binary encoder `encode_term` of `lib.rs`: one byte stream per
value tree, or the first failure.  Tags: 0 Null, 1 Bool, 2 Int, 3 Float,
4 String, 5 Array, 6 Record, 7 Enum; every length/count field is the
Rust `as u32` cast (`% 2^32`) written on 4 little-endian bytes. -/
def encode_term : Term → Except String (List ℕ)
  | .null => .ok [0]
  | .bool b => .ok [1, cond b 1 0]
  | .num n =>
    let f := roundF64 n
    if f64_fract_zero f && f64_le i64_min_as_f64 f && f64_le f i64_max_as_f64 then
      .ok (2 :: i64_to_le_bytes (f64_to_i64_sat f))
    else
      .ok (3 :: natToLeBytes (f64bits f) 8)
  | .str s => .ok (4 :: (natToLeBytes (s.length % 2 ^ 32) 4 ++ s))
  | .arr xs =>
    match encode_term_list xs with
    | .ok body => .ok (5 :: (natToLeBytes (xs.length % 2 ^ 32) 4 ++ body))
    | .error e => .error e
  | .record fs =>
    match encode_term_fields fs with
    | .ok body => .ok (6 :: (natToLeBytes (fs.length % 2 ^ 32) 4 ++ body))
    | .error e => .error e
  | .enum tag => .ok (7 :: (natToLeBytes (tag.length % 2 ^ 32) 4 ++ tag ++ [0]))
  | .enumVariant tag arg =>
    match encode_term arg with
    | .ok ab => .ok (7 :: (natToLeBytes (tag.length % 2 ^ 32) 4 ++ tag ++ 1 :: ab))
    | .error e => .error e
  | .other d => .error ("Unsupported term type for native encoding: " ++ d)

/-- The element loop of the `Term::Array` arm: elements are encoded and
concatenated in original order; the first failure aborts. -/
def encode_term_list : List Term → Except String (List ℕ)
  | [] => .ok []
  | t :: ts =>
    match encode_term t with
    | .ok b =>
      match encode_term_list ts with
      | .ok bs => .ok (b ++ bs)
      | .error e => .error e
    | .error e => .error e

/-- The field loop of the `Term::Record` arm: per field a 4-byte key
length (`as u32`), the key bytes, then the encoded value — or the single
Null tag byte when the field has no bound value. -/
def encode_term_fields : List (List ℕ × Option Term) → Except String (List ℕ)
  | [] => .ok []
  | (k, v) :: fs =>
    match (match v with
           | some t => encode_term t
           | none => Except.ok [0] : Except String (List ℕ)) with
    | .ok vb =>
      match encode_term_fields fs with
      | .ok rest => .ok (natToLeBytes (k.length % 2 ^ 32) 4 ++ k ++ (vb ++ rest))
      | .error e => .error e
    | .error e => .error e

end

deriving instance DecidableEq for Except

/-- A decoded wire value.  `wfloat` keeps the 8 raw little-endian bytes
of the IEEE-754 double; `wbool` is the payload byte compared against 1;
an absent record-field value decodes as `wnull`. -/
inductive WireVal where
  | wnull
  | wbool (b : Bool)
  | wint (n : ℤ)
  | wfloat (bytes : List ℕ)
  | wstr (s : List ℕ)
  | warr (xs : List WireVal)
  | wrec (fields : List (List ℕ × WireVal))
  | wenum (tag : List ℕ) (arg : Option WireVal)

/-- Modelled from the spec: decode `n` consecutive values (array
elements) with the supplied single-value decoder. -/
def decodeListFrom (dec : List ℕ → Option (WireVal × List ℕ)) :
    ℕ → List ℕ → Option (List WireVal × List ℕ)
  | 0, bs => some ([], bs)
  | n + 1, bs =>
    match dec bs with
    | some (v, r) =>
      match decodeListFrom dec n r with
      | some (vs, r2) => some (v :: vs, r2)
      | none => none
    | none => none

/-- Modelled from the spec: decode `n` record fields — each a 4-byte key
length, the key bytes, then one value — with the supplied single-value
decoder. -/
def decodeFieldsFrom (dec : List ℕ → Option (WireVal × List ℕ)) :
    ℕ → List ℕ → Option (List (List ℕ × WireVal) × List ℕ)
  | 0, bs => some ([], bs)
  | n + 1, bs =>
    if 4 ≤ bs.length then
      let L := leBytesToNat (bs.take 4)
      let r1 := bs.drop 4
      if L ≤ r1.length then
        match dec (r1.drop L) with
        | some (v, r2) =>
          match decodeFieldsFrom dec n r2 with
          | some (fs, r3) => some ((r1.take L, v) :: fs, r3)
          | none => none
        | none => none
      else none
    else none

/-- Modelled from the spec: the repository ships no decoder (the Julia
caller consumes the buffer), so decoding follows the wire table of §4.3
of the spec — one tag byte, little-endian 4-byte lengths/counts,
recursively encoded payloads.  `fuel` bounds the nesting depth; `none`
on exhausted fuel or malformed input.  Returns the decoded value and the
unconsumed remainder of the stream. -/
def decodeVal : ℕ → List ℕ → Option (WireVal × List ℕ)
  | 0, _ => none
  | _ + 1, [] => none
  | fuel + 1, tag :: rest =>
    if tag = 0 then some (.wnull, rest)
    else if tag = 1 then
      if 1 ≤ rest.length then some (.wbool (rest.getD 0 0 == 1), rest.drop 1) else none
    else if tag = 2 then
      if 8 ≤ rest.length then some (.wint (le_bytes_to_i64 (rest.take 8)), rest.drop 8) else none
    else if tag = 3 then
      if 8 ≤ rest.length then some (.wfloat (rest.take 8), rest.drop 8) else none
    else if tag = 4 then
      if 4 ≤ rest.length then
        let L := leBytesToNat (rest.take 4)
        let body := rest.drop 4
        if L ≤ body.length then some (.wstr (body.take L), body.drop L) else none
      else none
    else if tag = 5 then
      if 4 ≤ rest.length then
        match decodeListFrom (fun b => decodeVal fuel b) (leBytesToNat (rest.take 4))
            (rest.drop 4) with
        | some (vs, r) => some (.warr vs, r)
        | none => none
      else none
    else if tag = 6 then
      if 4 ≤ rest.length then
        match decodeFieldsFrom (fun b => decodeVal fuel b) (leBytesToNat (rest.take 4))
            (rest.drop 4) with
        | some (fs, r) => some (.wrec fs, r)
        | none => none
      else none
    else if tag = 7 then
      if 4 ≤ rest.length then
        let L := leBytesToNat (rest.take 4)
        let r1 := rest.drop 4
        if L ≤ r1.length then
          match r1.drop L with
          | 0 :: r2 => some (.wenum (r1.take L) none, r2)
          | 1 :: r2 =>
            match decodeVal fuel r2 with
            | some (v, r3) => some (.wenum (r1.take L) (some v), r3)
            | none => none
          | _ => none
        else none
      else none
    else none

/-- Decoding `n` consecutive values at a given nesting-depth fuel. -/
def decodeValList (fuel n : ℕ) (bs : List ℕ) : Option (List WireVal × List ℕ) :=
  decodeListFrom (fun b => decodeVal fuel b) n bs

/-- Decoding `n` record fields at a given nesting-depth fuel. -/
def decodeValFields (fuel n : ℕ) (bs : List ℕ) :
    Option (List (List ℕ × WireVal) × List ℕ) :=
  decodeFieldsFrom (fun b => decodeVal fuel b) n bs

mutual

/-- All length- and count-prefixed collections in the tree are strictly
below `2^32`, so that every `as u32` cast in the encoder is lossless;
`other` nodes (no encoding rule) are excluded. -/
def sizeOK : Term → Bool
  | .null => true
  | .bool _ => true
  | .num _ => true
  | .str s => decide (s.length < 2 ^ 32)
  | .arr xs => decide (xs.length < 2 ^ 32) && sizeOKList xs
  | .record fs => decide (fs.length < 2 ^ 32) && sizeOKFields fs
  | .enum tag => decide (tag.length < 2 ^ 32)
  | .enumVariant tag arg => decide (tag.length < 2 ^ 32) && sizeOK arg
  | .other _ => false

/-- `sizeOK` on every element of an array. -/
def sizeOKList : List Term → Bool
  | [] => true
  | t :: ts => sizeOK t && sizeOKList ts

/-- `sizeOK` on every field of a record: key below `2^32` and, when a
value is bound, `sizeOK` of the value. -/
def sizeOKFields : List (List ℕ × Option Term) → Bool
  | [] => true
  | (k, v) :: fs =>
    decide (k.length < 2 ^ 32) &&
      (match v with
        | some t => sizeOK t
        | none => true) &&
      sizeOKFields fs

end

mutual

/-- The wire value a tree denotes: the decoder-side image of
`encode_term`.  Numbers take the narrowed integer or the float bytes
according to the encoder's own branch; a field without a bound value
denotes `wnull`; `other` has no encoding and is mapped to an arbitrary
placeholder (never reached by roundtrip statements). -/
def toWire : Term → WireVal
  | .null => .wnull
  | .bool b => .wbool b
  | .num n =>
    let f := roundF64 n
    if f64_fract_zero f && f64_le i64_min_as_f64 f && f64_le f i64_max_as_f64 then
      .wint (f64_to_i64_sat f)
    else
      .wfloat (natToLeBytes (f64bits f) 8)
  | .str s => .wstr s
  | .arr xs => .warr (toWireList xs)
  | .record fs => .wrec (toWireFields fs)
  | .enum tag => .wenum tag none
  | .enumVariant tag arg => .wenum tag (some (toWire arg))
  | .other _ => .wnull

/-- `toWire` on every element. -/
def toWireList : List Term → List WireVal
  | [] => []
  | t :: ts => toWire t :: toWireList ts

/-- `toWire` on every field. -/
def toWireFields : List (List ℕ × Option Term) → List (List ℕ × WireVal)
  | [] => []
  | (k, v) :: fs =>
    (k, match v with
      | some t => toWire t
      | none => WireVal.wnull) :: toWireFields fs

end

mutual

/-- Whether a tree contains a node with no binary encoding rule (a
`Term` variant matched by the final `other` arm of `encode_term`). -/
def hasOther : Term → Bool
  | .null => false
  | .bool _ => false
  | .num _ => false
  | .str _ => false
  | .arr xs => hasOtherList xs
  | .record fs => hasOtherFields fs
  | .enum _ => false
  | .enumVariant _ arg => hasOther arg
  | .other _ => true

/-- `hasOther` over array elements. -/
def hasOtherList : List Term → Bool
  | [] => false
  | t :: ts => hasOther t || hasOtherList ts

/-- `hasOther` over record fields. -/
def hasOtherFields : List (List ℕ × Option Term) → Bool
  | [] => false
  | (_, v) :: fs =>
    (match v with
      | some t => hasOther t
      | none => false) ||
      hasOtherFields fs

end

mutual

/-- The debug renderings of the unsupported nodes of a tree, in
depth-first (encoding) order. -/
def otherDescs : Term → List String
  | .null => []
  | .bool _ => []
  | .num _ => []
  | .str _ => []
  | .arr xs => otherDescsList xs
  | .record fs => otherDescsFields fs
  | .enum _ => []
  | .enumVariant _ arg => otherDescs arg
  | .other d => [d]

/-- `otherDescs` over array elements. -/
def otherDescsList : List Term → List String
  | [] => []
  | t :: ts => otherDescs t ++ otherDescsList ts

/-- `otherDescs` over record fields. -/
def otherDescsFields : List (List ℕ × Option Term) → List String
  | [] => []
  | (_, v) :: fs =>
    (match v with
      | some t => otherDescs t
      | none => []) ++
      otherDescsFields fs

end

/-! ## The boundary: error slot and entry points -/

/-- The NUL character, the one byte `CString::new` rejects inside a
message. -/
def nulChar : Char := Char.ofNat 0

/-- Whether a Rust `String` contains an interior NUL byte. -/
def hasNul (s : String) : Bool := s.data.contains nulChar

/-- `CString::new(msg).ok()`: `some msg` when NUL-free, otherwise
`none`. -/
def cstringNew (msg : String) : Option String :=
  if hasNul msg then none else some msg

/-- `set_error` of `lib.rs`: unconditionally replaces the calling
thread's `LAST_ERROR` slot with `CString::new(msg).ok()` — the previous
content (`_prev`) is discarded, and a message with an interior NUL
leaves the slot empty. -/
def set_error (msg : String) (_prev : Option String) : Option String :=
  cstringNew msg

/-- `nickel_get_error`: the stored message, or the null sentinel when
the slot has never been written (or was cleared by a NUL-carrying
message). -/
def nickel_get_error (slot : Option String) : Option String :=
  match slot with
  | some s => some s
  | none => none

/-- Modelled from the spec: `nickel_lang_core`, `std::str` and
`serde_json` are external collaborators, so the UTF-8 check
(`CStr::to_str`), and the parse + evaluate (+ JSON-serialize) pipelines
are oracle parameters.  `Utf8Check` stands for `CStr::from_ptr(..)
.to_str()` on the input bytes, producing the decoded text or the error
display `e` interpolated into "Invalid UTF-8 in input: {e}". -/
def Utf8Check : Type := List ℕ → Except String String

/-- Modelled from the spec: `eval_nickel_json` — parse, fully evaluate
and JSON-serialize, everything delegated to external crates; produces
the JSON text or a failure message. -/
def JsonOracle : Type := String → Except String String

/-- Modelled from the spec: the parse-and-evaluate front half of
`eval_nickel_native` (`Program::new_from_source` +
`eval_full_for_export`), producing the evaluated value tree or a
failure message. -/
def EvalOracle : Type := String → Except String Term

/-- `eval_nickel_native` of `lib.rs`: evaluate (oracle), then run the
in-repository binary encoder. -/
def eval_nickel_native (oracle : EvalOracle) (code : String) : Except String (List ℕ) :=
  (oracle code).bind encode_term

/-- `nickel_eval_native` of `lib.rs`: null-pointer check, UTF-8 check,
evaluate + encode; on success the buffer is handed out and the error
slot untouched, on failure the null buffer (`none`) is returned and the
message deposited with `set_error`. -/
def nickel_eval_native (utf8 : Utf8Check) (oracle : EvalOracle)
    (code : Option (List ℕ)) (slot : Option String) :
    Option (List ℕ) × Option String :=
  match code with
  | none => (none, set_error "Null pointer passed to nickel_eval_native" slot)
  | some bytes =>
    match utf8 bytes with
    | .error e => (none, set_error ("Invalid UTF-8 in input: " ++ e) slot)
    | .ok s =>
      match eval_nickel_native oracle s with
      | .ok buffer => (some buffer, slot)
      | .error e => (none, set_error e slot)

/-- Modelled from the spec: the display of the `NulError` that
`CString::new` returns when the produced JSON contains an interior NUL,
interpolated into "Result contains null byte: {e}". -/
def nulErrorDisplay (s : String) : String :=
  "nul byte found in provided data at position: " ++ toString (s.data.indexOf nulChar)

/-- `nickel_eval_string` of `lib.rs`: null-pointer check, UTF-8 check,
evaluate to JSON (oracle); a NUL-free result is handed out with the
error slot untouched, every failure returns the null sentinel and
deposits its message. -/
def nickel_eval_string (utf8 : Utf8Check) (oracle : JsonOracle)
    (code : Option (List ℕ)) (slot : Option String) :
    Option String × Option String :=
  match code with
  | none => (none, set_error "Null pointer passed to nickel_eval_string" slot)
  | some bytes =>
    match utf8 bytes with
    | .error e => (none, set_error ("Invalid UTF-8 in input: " ++ e) slot)
    | .ok s =>
      match oracle s with
      | .ok json =>
        if hasNul json then
          (none, set_error ("Result contains null byte: " ++ nulErrorDisplay json) slot)
        else (some json, slot)
      | .error e => (none, set_error e slot)

/-- The wire image of one record field: the key, and the value's wire
image (`wnull` when no value is bound). -/
def fieldWire (kv : List ℕ × Option Term) : List ℕ × WireVal :=
  (kv.1,
    match kv.2 with
    | some t => toWire t
    | none => WireVal.wnull)

/-- The encodings of the elements of an array, one chunk per element in
original order; fails with the first element failure. -/
def encodeEach : List Term → Except String (List (List ℕ))
  | [] => .ok []
  | t :: ts =>
    match encode_term t with
    | .ok b =>
      match encodeEach ts with
      | .ok bs => .ok (b :: bs)
      | .error e => .error e
    | .error e => .error e

/-- The encoding of one record field: 4-byte key length (`as u32`), the
key bytes, then the encoded value — or the single Null tag byte when no
value is bound. -/
def encodeField (kv : List ℕ × Option Term) : Except String (List ℕ) :=
  match kv.2 with
  | some t =>
    match encode_term t with
    | .ok vb => .ok (natToLeBytes (kv.1.length % 2 ^ 32) 4 ++ kv.1 ++ vb)
    | .error e => .error e
  | none => .ok (natToLeBytes (kv.1.length % 2 ^ 32) 4 ++ kv.1 ++ [0])

/-- The encodings of the fields of a record, one chunk per field in
original order; fails with the first field failure. -/
def encodeFieldEach : List (List ℕ × Option Term) → Except String (List (List ℕ))
  | [] => .ok []
  | kv :: fs =>
    match encodeField kv with
    | .ok c =>
      match encodeFieldEach fs with
      | .ok cs => .ok (c :: cs)
      | .error e => .error e
    | .error e => .error e

/-- The error message of the final arm of `encode_term`, with `d` the
debug rendering of the offending term. -/
def unsupported_msg (d : String) : String :=
  "Unsupported term type for native encoding: " ++ d


/-! ## Little-endian byte lemmas -/

theorem natToLeBytes_length (k len : ℕ) : (natToLeBytes k len).length = len := by
  induction len generalizing k with
  | zero => rfl
  | succ len ih => simp [natToLeBytes, ih]

theorem leBytesToNat_natToLeBytes (len k : ℕ) :
    leBytesToNat (natToLeBytes k len) = k % 256 ^ len := by
  induction len generalizing k with
  | zero => simp [natToLeBytes, leBytesToNat, Nat.mod_one]
  | succ len ih =>
    rw [pow_succ, mul_comm (256 ^ len) 256, Nat.mod_mul]
    simp [natToLeBytes, leBytesToNat, ih]

theorem leBytesToNat_natToLeBytes_of_lt {k : ℕ} (len : ℕ) (h : k < 256 ^ len) :
    leBytesToNat (natToLeBytes k len) = k := by
  rw [leBytesToNat_natToLeBytes, Nat.mod_eq_of_lt h]

theorem natToLeBytes_mod_pow (len k : ℕ) :
    natToLeBytes (k % 256 ^ len) len = natToLeBytes k len := by
  induction len generalizing k with
  | zero => rfl
  | succ len ih =>
    rw [pow_succ, mul_comm (256 ^ len) 256, Nat.mod_mul]
    simp only [natToLeBytes, List.cons.injEq]
    constructor
    · omega
    · rw [show (k % 256 + 256 * (k / 256 % 256 ^ len)) / 256 = k / 256 % 256 ^ len by omega]
      exact ih (k / 256)

theorem i64_to_le_bytes_length (v : ℤ) : (i64_to_le_bytes v).length = 8 := by
  simp [i64_to_le_bytes, natToLeBytes_length]

theorem le_bytes_to_i64_roundtrip (v : ℤ) (h1 : -(2 ^ 63) ≤ v) (h2 : v < 2 ^ 63) :
    le_bytes_to_i64 (i64_to_le_bytes v) = v := by
  have hlt : (v % 2 ^ 64).toNat < 256 ^ 8 := by omega
  rw [le_bytes_to_i64, i64_to_le_bytes, leBytesToNat_natToLeBytes_of_lt 8 hlt]
  split <;> omega

/-! ## Lemmas about the modelled doubles -/

theorem i64_min_as_f64_eq : i64_min_as_f64 = F64.fin true (2 ^ 52) 11 := by decide

theorem i64_max_as_f64_eq : i64_max_as_f64 = F64.fin false (2 ^ 52) 11 := by decide

theorem f64_fract_zero_of_as_int {f : F64} {v : ℤ} (h : f64_as_int f = some v) :
    f64_fract_zero f = true := by
  cases f with
  | fin s m e =>
    simp only [f64_as_int] at h
    simp only [f64_fract_zero]
    split at h
    · simp [*]
    · split at h
      · next h1 h2 => simp [h1, h2]
      · exact absurd h (by simp)
  | inf => simp [f64_as_int] at h
  | neginf => simp [f64_as_int] at h

theorem f64_to_i64_sat_range (f : F64) :
    -(2 ^ 63) ≤ f64_to_i64_sat f ∧ f64_to_i64_sat f < 2 ^ 63 := by
  cases f with
  | fin s m e =>
    simp only [f64_to_i64_sat]
    split_ifs <;> omega
  | inf => decide
  | neginf => decide

/-- Case analysis of `f64_as_int` on a finite double. -/
theorem f64_as_int_fin {s : Bool} {m : ℕ} {e : ℤ} {v : ℤ}
    (h : f64_as_int (F64.fin s m e) = some v) :
    (0 ≤ e ∧ v = (if s then -1 else 1) * ((m * 2 ^ e.toNat : ℕ) : ℤ)) ∨
      (¬0 ≤ e ∧ 2 ^ (-e).toNat ∣ m ∧
        v = (if s then -1 else 1) * ((m / 2 ^ (-e).toNat : ℕ) : ℤ)) := by
  by_cases he : 0 ≤ e
  · left
    simp only [f64_as_int, if_pos he, Option.some.injEq] at h
    exact ⟨he, h.symm⟩
  · right
    by_cases hd : 2 ^ (-e).toNat ∣ m
    · simp only [f64_as_int, if_neg he, if_pos hd, Option.some.injEq] at h
      exact ⟨he, hd, h.symm⟩
    · simp only [f64_as_int, if_neg he, if_neg hd] at h
      exact absurd h (by simp)

/-- The magnitude comparison against `2^63 = 2^52 · 2^11`, from its
integer-side counterpart. -/
theorem f64_mag_le_2_63 {m : ℕ} {e : ℤ}
    (h : if 0 ≤ e then (m * 2 ^ e.toNat : ℕ) ≤ 2 ^ 63 else m ≤ 2 ^ 63 * 2 ^ (-e).toNat) :
    f64_mag_le m e (2 ^ 52) 11 = true := by
  simp only [f64_mag_le]
  by_cases he : 0 ≤ e
  · rw [if_pos he] at h
    by_cases he11 : e ≤ 11
    · rw [if_pos he11]
      simp only [decide_eq_true_eq]
      have h2 : (11 - e).toNat = 11 - e.toNat := by omega
      rw [h2]
      have hpos : (0 : ℕ) < 2 ^ e.toNat := Nat.pos_pow_of_pos _ (by norm_num)
      apply Nat.le_of_mul_le_mul_right _ hpos
      calc m * 2 ^ e.toNat ≤ 2 ^ 63 := h
        _ = 2 ^ 52 * 2 ^ (11 - e.toNat) * 2 ^ e.toNat := by
            rw [mul_assoc, ← pow_add, ← pow_add]
            congr 1
            omega
    · rw [if_neg he11]
      simp only [decide_eq_true_eq]
      have h2 : (e - 11).toNat = e.toNat - 11 := by omega
      rw [h2]
      have hpos : (0 : ℕ) < 2 ^ 11 := by norm_num
      apply Nat.le_of_mul_le_mul_right _ hpos
      calc m * 2 ^ (e.toNat - 11) * 2 ^ 11
          = m * 2 ^ e.toNat := by
            rw [mul_assoc, ← pow_add]
            congr 2
            omega
        _ ≤ 2 ^ 63 := h
        _ = 2 ^ 52 * 2 ^ 11 := by norm_num
  · rw [if_neg he] at h
    have he11 : e ≤ 11 := by omega
    rw [if_pos he11]
    simp only [decide_eq_true_eq]
    have h2 : (11 - e).toNat = 11 + (-e).toNat := by omega
    rw [h2]
    calc m ≤ 2 ^ 63 * 2 ^ (-e).toNat := h
      _ = 2 ^ 52 * 2 ^ (11 + (-e).toNat) := by
          rw [pow_add]
          ring

/-- From `f64_as_int`, the integer-side magnitude bound needed by
`f64_mag_le_2_63`. -/
theorem f64_as_int_mag_bound {s : Bool} {m : ℕ} {e : ℤ} {v : ℤ}
    (h : f64_as_int (F64.fin s m e) = some v) (hv : v.natAbs ≤ 2 ^ 63) :
    if 0 ≤ e then (m * 2 ^ e.toNat : ℕ) ≤ 2 ^ 63 else m ≤ 2 ^ 63 * 2 ^ (-e).toNat := by
  rcases f64_as_int_fin h with ⟨he, hv'⟩ | ⟨he, hdvd, hv'⟩
  · rw [if_pos he]
    cases s
    · rw [if_neg Bool.false_ne_true, one_mul] at hv'
      revert hv' hv
      generalize m * 2 ^ e.toNat = X
      intro hv hv'
      omega
    · rw [if_pos rfl, neg_one_mul] at hv'
      revert hv' hv
      generalize m * 2 ^ e.toNat = X
      intro hv hv'
      omega
  · rw [if_neg he]
    obtain ⟨c, hc⟩ := hdvd
    have hpos : (0 : ℕ) < 2 ^ (-e).toNat := Nat.pos_pow_of_pos _ (by norm_num)
    have hdc : m / 2 ^ (-e).toNat = c := by
      rw [hc, Nat.mul_div_cancel_left _ hpos]
    rw [hdc] at hv'
    have hcle : c ≤ 2 ^ 63 := by
      clear hdc hc
      cases s
      · rw [if_neg Bool.false_ne_true, one_mul] at hv'
        omega
      · rw [if_pos rfl, neg_one_mul] at hv'
        omega
    calc m = 2 ^ (-e).toNat * c := hc
      _ ≤ 2 ^ (-e).toNat * 2 ^ 63 := Nat.mul_le_mul_left _ hcle
      _ = 2 ^ 63 * 2 ^ (-e).toNat := by ring

/-- The sign of the integer value follows the sign bit. -/
theorem f64_as_int_sign {s : Bool} {m : ℕ} {e : ℤ} {v : ℤ}
    (h : f64_as_int (F64.fin s m e) = some v) :
    (s = true → v ≤ 0) ∧ (s = false → 0 ≤ v) := by
  rcases f64_as_int_fin h with ⟨he, hv'⟩ | ⟨he, hdvd, hv'⟩ <;> cases s
  · rw [if_neg Bool.false_ne_true, one_mul] at hv'
    exact ⟨by simp, fun _ => hv' ▸ Int.natCast_nonneg _⟩
  · rw [if_pos rfl, neg_one_mul] at hv'
    exact ⟨fun _ => hv' ▸ neg_nonpos.mpr (Int.natCast_nonneg _), by simp⟩
  · rw [if_neg Bool.false_ne_true, one_mul] at hv'
    exact ⟨by simp, fun _ => hv' ▸ Int.natCast_nonneg _⟩
  · rw [if_pos rfl, neg_one_mul] at hv'
    exact ⟨fun _ => hv' ▸ neg_nonpos.mpr (Int.natCast_nonneg _), by simp⟩

theorem f64_le_min_of_as_int {s : Bool} {m : ℕ} {e : ℤ} {v : ℤ}
    (h : f64_as_int (F64.fin s m e) = some v) (hv : -(2 ^ 63) ≤ v) :
    f64_le i64_min_as_f64 (F64.fin s m e) = true := by
  rw [i64_min_as_f64_eq]
  cases s
  · simp [f64_le]
  · have hneg : v ≤ 0 := (f64_as_int_sign h).1 rfl
    have hb := f64_as_int_mag_bound h (by omega)
    simp only [f64_le]
    exact f64_mag_le_2_63 hb

theorem f64_le_max_of_as_int {s : Bool} {m : ℕ} {e : ℤ} {v : ℤ}
    (h : f64_as_int (F64.fin s m e) = some v) (hv : v ≤ 2 ^ 63) :
    f64_le (F64.fin s m e) i64_max_as_f64 = true := by
  rw [i64_max_as_f64_eq]
  cases s
  · have hpos : 0 ≤ v := (f64_as_int_sign h).2 rfl
    have hb := f64_as_int_mag_bound h (by omega)
    simp only [f64_le]
    exact f64_mag_le_2_63 hb
  · simp [f64_le]

theorem f64_to_i64_sat_of_as_int {s : Bool} {m : ℕ} {e : ℤ} {v : ℤ}
    (h : f64_as_int (F64.fin s m e) = some v) (h1 : -(2 ^ 63) ≤ v) (h2 : v ≤ 2 ^ 63 - 1) :
    f64_to_i64_sat (F64.fin s m e) = v := by
  simp only [f64_to_i64_sat]
  rcases f64_as_int_fin h with ⟨he, hv'⟩ | ⟨he, hdvd, hv'⟩
  · rw [if_pos he]
    cases s
    · rw [if_neg Bool.false_ne_true, one_mul] at hv'
      revert hv'
      generalize m * 2 ^ e.toNat = X
      intro hv'
      split_ifs <;> first | contradiction | omega
    · rw [if_pos rfl, neg_one_mul] at hv'
      revert hv'
      generalize m * 2 ^ e.toNat = X
      intro hv'
      split_ifs <;> first | contradiction | omega
  · rw [if_neg he]
    obtain ⟨c, hc⟩ := hdvd
    have hpos : (0 : ℕ) < 2 ^ (-e).toNat := Nat.pos_pow_of_pos _ (by norm_num)
    have hdc : m / 2 ^ (-e).toNat = c := by
      rw [hc, Nat.mul_div_cancel_left _ hpos]
    rw [hdc] at hv' ⊢
    clear hdc hc hpos
    cases s
    · rw [if_neg Bool.false_ne_true, one_mul] at hv'
      split_ifs <;> first | contradiction | omega
    · rw [if_pos rfl, neg_one_mul] at hv'
      split_ifs <;> first | contradiction | omega

/-- The Int branch of the `Term::Num` arm: a number whose nearest double
is exactly the in-range integer `n` is emitted as tag 2 with the
little-endian bytes of `n`. -/
theorem encode_num_int (n : ℤ) (h1 : -(2 ^ 63) ≤ n) (h2 : n < 2 ^ 63)
    (h3 : f64_as_int (roundF64 (n : ℚ)) = some n) :
    encode_term (.num (n : ℚ)) = .ok (2 :: i64_to_le_bytes n) := by
  cases hf : roundF64 (n : ℚ) with
  | fin s m e =>
    rw [hf] at h3
    have hc1 := f64_fract_zero_of_as_int h3
    have hc2 := f64_le_min_of_as_int h3 h1
    have hc3 := f64_le_max_of_as_int h3 (by omega)
    have hs := f64_to_i64_sat_of_as_int h3 h1 (by omega)
    simp [encode_term, hf, hc1, hc2, hc3, hs]
  | inf =>
    rw [hf] at h3
    simp [f64_as_int] at h3
  | neginf =>
    rw [hf] at h3
    simp [f64_as_int] at h3

/-! ## Roundtrip: decoding an encoded tree -/

theorem toWireList_eq_map (xs : List Term) : toWireList xs = xs.map toWire := by
  induction xs with
  | nil => rfl
  | cons x ts ih => simp [toWireList, ih]

theorem toWireFields_eq_map : ∀ fs, toWireFields fs = List.map fieldWire fs
  | [] => rfl
  | (k, some t) :: fs => congrArg (List.cons (k, toWire t)) (toWireFields_eq_map fs)
  | (k, none) :: fs => congrArg (List.cons (k, WireVal.wnull)) (toWireFields_eq_map fs)

theorem term_sizeOf_pos (t : Term) : 1 ≤ sizeOf t := by
  cases t <;> simp <;> omega

theorem term_list_sizeOf_pos (xs : List Term) : 1 ≤ sizeOf xs := by
  cases xs <;> simp <;> omega

theorem field_list_sizeOf_pos (fs : List (List ℕ × Option Term)) : 1 ≤ sizeOf fs := by
  cases fs <;> simp <;> omega

theorem byte_list_sizeOf_pos (bs : List ℕ) : 1 ≤ sizeOf bs := by
  cases bs <;> simp <;> omega

theorem leBytesToNat_len4 {n : ℕ} (h : n < 2 ^ 32) :
    leBytesToNat (natToLeBytes (n % 2 ^ 32) 4) = n := by
  rw [leBytesToNat_natToLeBytes]
  omega

theorem decodeVal_null {fuel : ℕ} (h : 1 ≤ fuel) (r : List ℕ) :
    decodeVal fuel (0 :: r) = some (.wnull, r) := by
  obtain ⟨f, rfl⟩ : ∃ f, fuel = f + 1 := ⟨fuel - 1, by omega⟩
  simp [decodeVal]


theorem leBytesToNat_natToLeBytes4 {n : ℕ} (h : n < 2 ^ 32) :
    leBytesToNat (natToLeBytes n 4) = n := by
  apply leBytesToNat_natToLeBytes_of_lt
  omega

theorem decodeVal_tag1 {fuel : ℕ} (h : 1 ≤ fuel) (b : ℕ) (rest : List ℕ) :
    decodeVal fuel (1 :: b :: rest) = some (.wbool (b == 1), rest) := by
  obtain ⟨f, rfl⟩ : ∃ f, fuel = f + 1 := ⟨fuel - 1, by omega⟩
  simp [decodeVal]

theorem decodeVal_tag2 {fuel : ℕ} (h : 1 ≤ fuel) (pb rest : List ℕ) (hpb : pb.length = 8) :
    decodeVal fuel (2 :: (pb ++ rest)) = some (.wint (le_bytes_to_i64 pb), rest) := by
  obtain ⟨f, rfl⟩ : ∃ f, fuel = f + 1 := ⟨fuel - 1, by omega⟩
  simp [decodeVal, List.length_append, hpb, List.take_left' hpb, List.drop_left' hpb]

theorem decodeVal_tag3 {fuel : ℕ} (h : 1 ≤ fuel) (pb rest : List ℕ) (hpb : pb.length = 8) :
    decodeVal fuel (3 :: (pb ++ rest)) = some (.wfloat pb, rest) := by
  obtain ⟨f, rfl⟩ : ∃ f, fuel = f + 1 := ⟨fuel - 1, by omega⟩
  simp [decodeVal, List.length_append, hpb, List.take_left' hpb, List.drop_left' hpb]

theorem decodeVal_tag4 {fuel : ℕ} (h : 1 ≤ fuel) (lb s rest : List ℕ)
    (hlb : lb.length = 4) (hL : leBytesToNat lb = s.length) :
    decodeVal fuel (4 :: (lb ++ (s ++ rest))) = some (.wstr s, rest) := by
  obtain ⟨f, rfl⟩ : ∃ f, fuel = f + 1 := ⟨fuel - 1, by omega⟩
  simp [decodeVal, List.length_append, hlb, List.take_left' hlb, List.drop_left' hlb, hL,
    List.take_left, List.drop_left]

theorem decodeVal_tag5 (fuel : ℕ) (lb Z : List ℕ) (hlb : lb.length = 4)
    {vs : List WireVal} {r2 : List ℕ}
    (hd : decodeValList fuel (leBytesToNat lb) Z = some (vs, r2)) :
    decodeVal (fuel + 1) (5 :: (lb ++ Z)) = some (.warr vs, r2) := by
  simp only [decodeValList] at hd
  simp [decodeVal, List.length_append, hlb, List.take_left' hlb, List.drop_left' hlb, hd]

theorem decodeVal_tag6 (fuel : ℕ) (lb Z : List ℕ) (hlb : lb.length = 4)
    {fsv : List (List ℕ × WireVal)} {r2 : List ℕ}
    (hd : decodeValFields fuel (leBytesToNat lb) Z = some (fsv, r2)) :
    decodeVal (fuel + 1) (6 :: (lb ++ Z)) = some (.wrec fsv, r2) := by
  simp only [decodeValFields] at hd
  simp [decodeVal, List.length_append, hlb, List.take_left' hlb, List.drop_left' hlb, hd]

theorem decodeVal_tag7_0 (fuel : ℕ) (lb tag rest : List ℕ)
    (hlb : lb.length = 4) (hL : leBytesToNat lb = tag.length) :
    decodeVal (fuel + 1) (7 :: (lb ++ (tag ++ (0 :: rest)))) = some (.wenum tag none, rest) := by
  simp [decodeVal, List.length_append, hlb, List.take_left' hlb, List.drop_left' hlb, hL,
    List.take_left, List.drop_left]

theorem decodeVal_tag7_1 (fuel : ℕ) (lb tag Z : List ℕ)
    (hlb : lb.length = 4) (hL : leBytesToNat lb = tag.length)
    {v : WireVal} {r2 : List ℕ} (hd : decodeVal fuel Z = some (v, r2)) :
    decodeVal (fuel + 1) (7 :: (lb ++ (tag ++ (1 :: Z)))) = some (.wenum tag (some v), r2) := by
  simp [decodeVal, List.length_append, hlb, List.take_left' hlb, List.drop_left' hlb, hL,
    List.take_left, List.drop_left, hd]

theorem decodeValList_zero (fuel : ℕ) (bs : List ℕ) :
    decodeValList fuel 0 bs = some ([], bs) := rfl

theorem decodeValList_succ (fuel n : ℕ) (bs : List ℕ)
    {v : WireVal} {r : List ℕ} {vs : List WireVal} {r2 : List ℕ}
    (hd1 : decodeVal fuel bs = some (v, r))
    (hd2 : decodeValList fuel n r = some (vs, r2)) :
    decodeValList fuel (n + 1) bs = some (v :: vs, r2) := by
  simp only [decodeValList, decodeListFrom] at hd2 ⊢
  simp [hd1, hd2]

theorem decodeValFields_zero (fuel : ℕ) (bs : List ℕ) :
    decodeValFields fuel 0 bs = some ([], bs) := rfl

theorem decodeValFields_succ (fuel n : ℕ) (lb k Z : List ℕ)
    (hlb : lb.length = 4) (hL : leBytesToNat lb = k.length)
    {v : WireVal} {r : List ℕ} {fsv : List (List ℕ × WireVal)} {r2 : List ℕ}
    (hd1 : decodeVal fuel Z = some (v, r))
    (hd2 : decodeValFields fuel n r = some (fsv, r2)) :
    decodeValFields fuel (n + 1) (lb ++ (k ++ Z)) = some ((k, v) :: fsv, r2) := by
  simp only [decodeValFields, decodeFieldsFrom] at hd2 ⊢
  simp [List.length_append, hlb, List.take_left' hlb, List.drop_left' hlb, hL,
    List.take_left, List.drop_left, hd1, hd2]

theorem toWireList_cons (x : Term) (ts : List Term) :
    toWireList (x :: ts) = toWire x :: toWireList ts := by
  simp only [toWireList]

theorem toWireFields_cons_none (k : List ℕ) (fs : List (List ℕ × Option Term)) :
    toWireFields ((k, none) :: fs) = (k, WireVal.wnull) :: toWireFields fs := by
  rw [toWireFields_eq_map, toWireFields_eq_map, List.map_cons]
  rfl

theorem toWireFields_cons_some (k : List ℕ) (t : Term) (fs : List (List ℕ × Option Term)) :
    toWireFields ((k, some t) :: fs) = (k, toWire t) :: toWireFields fs := by
  rw [toWireFields_eq_map, toWireFields_eq_map, List.map_cons]
  rfl

/-- Decoding the concatenated encodings of the elements of an array,
given correct decoding of each element. -/
theorem list_roundtrip (f : ℕ)
    (hP : ∀ t bs rest, sizeOK t = true → encode_term t = .ok bs → sizeOf t ≤ f →
      decodeVal f (bs ++ rest) = some (toWire t, rest)) :
    ∀ xs body rest, sizeOKList xs = true → encode_term_list xs = .ok body →
      sizeOf xs ≤ f + 1 →
      decodeValList f xs.length (body ++ rest) = some (toWireList xs, rest) := by
  intro xs
  induction xs with
  | nil =>
    intro body rest hsk hok hsz
    simp only [encode_term_list, Except.ok.injEq] at hok
    subst hok
    simp [decodeValList_zero, toWireList]
  | cons x ts ih =>
    intro body rest hsk hok hsz
    cases he : encode_term x with
    | error e => simp [encode_term_list, he] at hok
    | ok b =>
      cases hts : encode_term_list ts with
      | error e => simp [encode_term_list, he, hts] at hok
      | ok bs2 =>
        simp only [encode_term_list, he, hts, Except.ok.injEq] at hok
        subst hok
        simp only [sizeOKList, Bool.and_eq_true] at hsk
        have hszx : sizeOf x ≤ f := by
          simp at hsz
          have := term_list_sizeOf_pos ts
          omega
        have hszts : sizeOf ts ≤ f + 1 := by
          simp at hsz
          have := term_sizeOf_pos x
          omega
        have hdx := hP x b (bs2 ++ rest) hsk.1 he hszx
        have hdts := ih bs2 rest hsk.2 hts hszts
        simp only [List.length_cons, List.append_assoc, toWireList_cons]
        exact decodeValList_succ f ts.length (b ++ (bs2 ++ rest)) hdx hdts

/-- Decoding the concatenated encodings of the fields of a record, given
correct decoding of each bound value. -/
theorem fields_roundtrip (f : ℕ)
    (hP : ∀ t bs rest, sizeOK t = true → encode_term t = .ok bs → sizeOf t ≤ f →
      decodeVal f (bs ++ rest) = some (toWire t, rest)) :
    ∀ fs body rest, sizeOKFields fs = true → encode_term_fields fs = .ok body →
      sizeOf fs ≤ f + 1 →
      decodeValFields f fs.length (body ++ rest) = some (toWireFields fs, rest) := by
  intro fs
  induction fs with
  | nil =>
    intro body rest hsk hok hsz
    simp only [encode_term_fields, Except.ok.injEq] at hok
    subst hok
    simp [decodeValFields_zero, toWireFields]
  | cons kv fs2 ih =>
    rcases kv with ⟨k, v⟩
    intro body rest hsk hok hsz
    cases v with
    | none =>
      cases hfs : encode_term_fields fs2 with
      | error e => simp [encode_term_fields, hfs] at hok
      | ok rest2 =>
        simp only [encode_term_fields, hfs, Except.ok.injEq] at hok
        subst hok
        simp only [sizeOKFields, Bool.and_eq_true, decide_eq_true_eq] at hsk
        have hf1 : 1 ≤ f := by
          simp at hsz
          have := field_list_sizeOf_pos fs2
          have := byte_list_sizeOf_pos k
          omega
        have hszf : sizeOf fs2 ≤ f + 1 := by
          simp at hsz
          have := byte_list_sizeOf_pos k
          omega
        have hdfs := ih rest2 rest hsk.2 hfs hszf
        rw [Nat.mod_eq_of_lt hsk.1.1]
        simp only [List.length_cons, List.append_assoc, List.cons_append,
          List.singleton_append, toWireFields_cons_none]
        exact decodeValFields_succ f fs2.length _ k _ (natToLeBytes_length _ _)
          (leBytesToNat_natToLeBytes4 hsk.1.1) (decodeVal_null hf1 _) hdfs
    | some t =>
      cases he : encode_term t with
      | error e => simp [encode_term_fields, he] at hok
      | ok vb =>
        cases hfs : encode_term_fields fs2 with
        | error e => simp [encode_term_fields, he, hfs] at hok
        | ok rest2 =>
          simp only [encode_term_fields, he, hfs, Except.ok.injEq] at hok
          subst hok
          simp only [sizeOKFields, Bool.and_eq_true, decide_eq_true_eq] at hsk
          have hszt : sizeOf t ≤ f := by
            simp at hsz
            have := field_list_sizeOf_pos fs2
            have := byte_list_sizeOf_pos k
            omega
          have hszf : sizeOf fs2 ≤ f + 1 := by
            simp at hsz
            have := byte_list_sizeOf_pos k
            have := term_sizeOf_pos t
            omega
          have hdt := hP t vb (rest2 ++ rest) hsk.1.2 he hszt
          have hdfs := ih rest2 rest hsk.2 hfs hszf
          rw [Nat.mod_eq_of_lt hsk.1.1]
          simp only [List.length_cons, List.append_assoc, List.cons_append,
            List.singleton_append, toWireFields_cons_some]
          exact decodeValFields_succ f fs2.length _ k _ (natToLeBytes_length _ _)
            (leBytesToNat_natToLeBytes4 hsk.1.1) hdt hdfs

/-- Roundtrip: decoding an encoded size-bounded tree (with fuel at least
its `sizeOf`) yields exactly its wire image and consumes exactly its
bytes. -/
theorem decode_encode_term : ∀ fuel t bs rest, sizeOK t = true →
    encode_term t = .ok bs → sizeOf t ≤ fuel →
    decodeVal fuel (bs ++ rest) = some (toWire t, rest) := by
  intro fuel
  induction fuel using Nat.strong_induction_on with
  | _ fuel ih =>
  intro t bs rest hsk hok hsz
  have hf1 : 1 ≤ fuel := le_trans (term_sizeOf_pos t) hsz
  obtain ⟨f, rfl⟩ : ∃ f, fuel = f + 1 := ⟨fuel - 1, by omega⟩
  have hP : ∀ t2 bs2 rest2, sizeOK t2 = true → encode_term t2 = .ok bs2 → sizeOf t2 ≤ f →
      decodeVal f (bs2 ++ rest2) = some (toWire t2, rest2) := ih f (by omega)
  cases t with
  | null =>
    simp only [encode_term, Except.ok.injEq] at hok
    subst hok
    simp only [List.singleton_append, toWire]
    exact decodeVal_null (by omega) rest
  | bool b =>
    simp only [encode_term, Except.ok.injEq] at hok
    subst hok
    cases b
    · simpa [toWire] using decodeVal_tag1 (show 1 ≤ f + 1 by omega) 0 rest
    · simpa [toWire] using decodeVal_tag1 (show 1 ≤ f + 1 by omega) 1 rest
  | num q =>
    simp only [encode_term] at hok
    split at hok <;> rename_i hcond <;> simp only [Except.ok.injEq] at hok <;> subst hok
    · have hr := f64_to_i64_sat_range (roundF64 q)
      rw [List.cons_append,
        decodeVal_tag2 (show 1 ≤ f + 1 by omega) _ rest (i64_to_le_bytes_length _)]
      simp [toWire, hcond, le_bytes_to_i64_roundtrip _ hr.1 hr.2]
    · rw [List.cons_append,
        decodeVal_tag3 (show 1 ≤ f + 1 by omega) _ rest (natToLeBytes_length _ _)]
      simp [toWire, hcond]
  | str s =>
    simp only [encode_term, Except.ok.injEq] at hok
    subst hok
    simp only [sizeOK, decide_eq_true_eq] at hsk
    rw [Nat.mod_eq_of_lt hsk, List.cons_append, List.append_assoc,
      decodeVal_tag4 (show 1 ≤ f + 1 by omega) _ s rest (natToLeBytes_length _ _)
        (leBytesToNat_natToLeBytes4 hsk)]
    simp [toWire]
  | arr xs =>
    cases hl : encode_term_list xs with
    | error e => simp [encode_term, hl] at hok
    | ok body2 =>
      simp only [encode_term, hl, Except.ok.injEq] at hok
      subst hok
      simp only [sizeOK, Bool.and_eq_true, decide_eq_true_eq] at hsk
      have hszl : sizeOf xs ≤ f + 1 := by
        simp at hsz
        omega
      have hdl := list_roundtrip f hP xs body2 rest hsk.2 hl hszl
      have hdl2 : decodeValList f (leBytesToNat (natToLeBytes xs.length 4)) (body2 ++ rest) =
          some (toWireList xs, rest) := by
        rw [leBytesToNat_natToLeBytes4 hsk.1]
        exact hdl
      rw [Nat.mod_eq_of_lt hsk.1, List.cons_append, List.append_assoc,
        decodeVal_tag5 f _ _ (natToLeBytes_length _ _) hdl2]
      simp [toWire]
  | record fs =>
    cases hl : encode_term_fields fs with
    | error e => simp [encode_term, hl] at hok
    | ok body2 =>
      simp only [encode_term, hl, Except.ok.injEq] at hok
      subst hok
      simp only [sizeOK, Bool.and_eq_true, decide_eq_true_eq] at hsk
      have hszl : sizeOf fs ≤ f + 1 := by
        simp at hsz
        omega
      have hdl := fields_roundtrip f hP fs body2 rest hsk.2 hl hszl
      have hdl2 : decodeValFields f (leBytesToNat (natToLeBytes fs.length 4)) (body2 ++ rest) =
          some (toWireFields fs, rest) := by
        rw [leBytesToNat_natToLeBytes4 hsk.1]
        exact hdl
      rw [Nat.mod_eq_of_lt hsk.1, List.cons_append, List.append_assoc,
        decodeVal_tag6 f _ _ (natToLeBytes_length _ _) hdl2]
      simp [toWire]
  | enum tag =>
    simp only [encode_term, Except.ok.injEq] at hok
    subst hok
    simp only [sizeOK, decide_eq_true_eq] at hsk
    rw [Nat.mod_eq_of_lt hsk, List.cons_append]
    simp only [List.append_assoc, List.singleton_append]
    rw [decodeVal_tag7_0 f _ tag rest (natToLeBytes_length _ _)
      (leBytesToNat_natToLeBytes4 hsk)]
    simp [toWire]
  | enumVariant tag arg =>
    cases he : encode_term arg with
    | error e => simp [encode_term, he] at hok
    | ok ab =>
      simp only [encode_term, he, Except.ok.injEq] at hok
      subst hok
      simp only [sizeOK, Bool.and_eq_true, decide_eq_true_eq] at hsk
      have hsza : sizeOf arg ≤ f := by
        simp at hsz
        have := byte_list_sizeOf_pos tag
        omega
      have hda := hP arg ab rest hsk.2 he hsza
      rw [Nat.mod_eq_of_lt hsk.1, List.cons_append]
      simp only [List.append_assoc, List.cons_append]
      rw [decodeVal_tag7_1 f _ tag (ab ++ rest) (natToLeBytes_length _ _)
        (leBytesToNat_natToLeBytes4 hsk.1) hda]
      simp [toWire]
  | other d => simp [sizeOK] at hsk

/-! ## Shape of array and record payloads -/

theorem encode_term_list_eq_each (xs : List Term) :
    encode_term_list xs = (encodeEach xs).map List.flatten := by
  induction xs with
  | nil => rfl
  | cons x ts ih =>
    cases he : encode_term x with
    | error e => simp [encode_term_list, encodeEach, he, Except.map]
    | ok b =>
      cases hm : encodeEach ts with
      | error e => simp [encode_term_list, encodeEach, he, hm, ih, Except.map]
      | ok bss => simp [encode_term_list, encodeEach, he, hm, ih, Except.map]

theorem encode_term_fields_eq_each (fs : List (List ℕ × Option Term)) :
    encode_term_fields fs = (encodeFieldEach fs).map List.flatten := by
  induction fs with
  | nil => rfl
  | cons kv fs2 ih =>
    rcases kv with ⟨k, v⟩
    cases v with
    | none =>
      cases hm : encodeFieldEach fs2 with
      | error e => simp [encode_term_fields, encodeFieldEach, encodeField, hm, ih, Except.map]
      | ok chunks => simp [encode_term_fields, encodeFieldEach, encodeField, hm, ih, Except.map]
    | some t =>
      cases he : encode_term t with
      | error e => simp [encode_term_fields, encodeFieldEach, encodeField, he, Except.map]
      | ok vb =>
        cases hm : encodeFieldEach fs2 with
        | error e => simp [encode_term_fields, encodeFieldEach, encodeField, he, hm, ih, Except.map]
        | ok chunks => simp [encode_term_fields, encodeFieldEach, encodeField, he, hm, ih, Except.map]

/-! ## Unsupported variants -/

/-- Simultaneous characterisation of success and failure of the encoder
with respect to `hasOther`: a tree free of unsupported variants encodes
successfully, and a tree containing one fails with the UnsupportedType
message of one of its offending nodes. -/
theorem encode_hasOther : ∀ N : ℕ,
    (∀ t, sizeOf t ≤ N →
      (hasOther t = false → ∃ bs, encode_term t = .ok bs) ∧
      (hasOther t = true →
        ∃ d, d ∈ otherDescs t ∧ encode_term t = .error (unsupported_msg d))) ∧
    (∀ xs : List Term, sizeOf xs ≤ N →
      (hasOtherList xs = false → ∃ bs, encode_term_list xs = .ok bs) ∧
      (hasOtherList xs = true →
        ∃ d, d ∈ otherDescsList xs ∧ encode_term_list xs = .error (unsupported_msg d))) ∧
    (∀ fs : List (List ℕ × Option Term), sizeOf fs ≤ N →
      (hasOtherFields fs = false → ∃ bs, encode_term_fields fs = .ok bs) ∧
      (hasOtherFields fs = true →
        ∃ d, d ∈ otherDescsFields fs ∧ encode_term_fields fs = .error (unsupported_msg d))) := by
  intro N
  induction N using Nat.strong_induction_on with
  | _ N ih =>
  refine ⟨?_, ?_, ?_⟩
  · intro t hsz
    cases t with
    | null => exact ⟨fun _ => ⟨_, rfl⟩, by simp [hasOther]⟩
    | bool b => exact ⟨fun _ => ⟨_, rfl⟩, by simp [hasOther]⟩
    | num q =>
      refine ⟨fun _ => ?_, by simp [hasOther]⟩
      simp only [encode_term]
      split
      · exact ⟨_, rfl⟩
      · exact ⟨_, rfl⟩
    | str s => exact ⟨fun _ => ⟨_, rfl⟩, by simp [hasOther]⟩
    | enum tag => exact ⟨fun _ => ⟨_, rfl⟩, by simp [hasOther]⟩
    | other d =>
      refine ⟨by simp [hasOther], fun _ => ⟨d, by simp [otherDescs], by simp [encode_term, unsupported_msg]⟩⟩
    | arr xs =>
      have hN : sizeOf xs ≤ N - 1 := by
        simp at hsz
        have := term_list_sizeOf_pos xs
        omega
      have hl := (ih (N - 1) (by
        simp at hsz
        have := term_list_sizeOf_pos xs
        omega)).2.1 xs hN
      constructor
      · intro h
        simp only [hasOther] at h
        obtain ⟨bs, hbs⟩ := hl.1 h
        refine ⟨5 :: (natToLeBytes (xs.length % 2 ^ 32) 4 ++ bs), ?_⟩
        simp [encode_term, hbs]
      · intro h
        simp only [hasOther] at h
        obtain ⟨d, hd, hbs⟩ := hl.2 h
        exact ⟨d, by simpa [otherDescs] using hd, by simp [encode_term, hbs]⟩
    | record fs =>
      have hN : sizeOf fs ≤ N - 1 := by
        simp at hsz
        have := field_list_sizeOf_pos fs
        omega
      have hl := (ih (N - 1) (by
        simp at hsz
        have := field_list_sizeOf_pos fs
        omega)).2.2 fs hN
      constructor
      · intro h
        simp only [hasOther] at h
        obtain ⟨bs, hbs⟩ := hl.1 h
        refine ⟨6 :: (natToLeBytes (fs.length % 2 ^ 32) 4 ++ bs), ?_⟩
        simp [encode_term, hbs]
      · intro h
        simp only [hasOther] at h
        obtain ⟨d, hd, hbs⟩ := hl.2 h
        exact ⟨d, by simpa [otherDescs] using hd, by simp [encode_term, hbs]⟩
    | enumVariant tag arg =>
      have hN : sizeOf arg ≤ N - 1 := by
        simp at hsz
        have := byte_list_sizeOf_pos tag
        omega
      have hl := (ih (N - 1) (by
        simp at hsz
        have := byte_list_sizeOf_pos tag
        omega)).1 arg hN
      constructor
      · intro h
        simp only [hasOther] at h
        obtain ⟨bs, hbs⟩ := hl.1 h
        refine ⟨7 :: (natToLeBytes (tag.length % 2 ^ 32) 4 ++ tag ++ 1 :: bs), ?_⟩
        simp [encode_term, hbs]
      · intro h
        simp only [hasOther] at h
        obtain ⟨d, hd, hbs⟩ := hl.2 h
        exact ⟨d, by simpa [otherDescs] using hd, by simp [encode_term, hbs]⟩
  · intro xs hsz
    cases xs with
    | nil => exact ⟨fun _ => ⟨_, rfl⟩, by simp [hasOtherList]⟩
    | cons x ts =>
      have hbound : sizeOf x ≤ N - 1 ∧ sizeOf ts ≤ N - 1 ∧ N - 1 < N := by
        simp at hsz
        have := term_sizeOf_pos x
        have := term_list_sizeOf_pos ts
        omega
      have hx := (ih (N - 1) hbound.2.2).1 x hbound.1
      have hts := (ih (N - 1) hbound.2.2).2.1 ts hbound.2.1
      constructor
      · intro h
        simp only [hasOtherList, Bool.or_eq_false_iff] at h
        obtain ⟨b, hb⟩ := hx.1 h.1
        obtain ⟨bs, hbs⟩ := hts.1 h.2
        refine ⟨b ++ bs, ?_⟩
        simp [encode_term_list, hb, hbs]
      · intro h
        simp only [hasOtherList, Bool.or_eq_true] at h
        cases hcase : hasOther x with
        | true =>
          obtain ⟨d, hd, he⟩ := hx.2 hcase
          refine ⟨d, by simp [otherDescsList, hd], by simp [encode_term_list, he]⟩
        | false =>
          obtain ⟨b, hb⟩ := hx.1 hcase
          have hts2 : hasOtherList ts = true := by
            rcases h with h | h
            · rw [hcase] at h
              exact absurd h (by simp)
            · exact h
          obtain ⟨d, hd, he⟩ := hts.2 hts2
          refine ⟨d, by simp [otherDescsList, hd], by simp [encode_term_list, hb, he]⟩
  · intro fs hsz
    cases fs with
    | nil => exact ⟨fun _ => ⟨_, rfl⟩, by simp [hasOtherFields]⟩
    | cons kv fs2 =>
      rcases kv with ⟨k, v⟩
      cases v with
      | none =>
        have hbound : sizeOf fs2 ≤ N - 1 ∧ N - 1 < N := by
          simp at hsz
          have := field_list_sizeOf_pos fs2
          have := byte_list_sizeOf_pos k
          omega
        have hfs := (ih (N - 1) hbound.2).2.2 fs2 hbound.1
        constructor
        · intro h
          simp only [hasOtherFields, Bool.or_eq_false_iff] at h
          obtain ⟨bs, hbs⟩ := hfs.1 h.2
          refine ⟨natToLeBytes (k.length % 2 ^ 32) 4 ++ k ++ ([0] ++ bs), ?_⟩
          simp [encode_term_fields, hbs]
        · intro h
          simp only [hasOtherFields, Bool.or_eq_true] at h
          have hfs2 : hasOtherFields fs2 = true := by
            rcases h with h | h
            · exact absurd h (by simp)
            · exact h
          obtain ⟨d, hd, he⟩ := hfs.2 hfs2
          refine ⟨d, by simp [otherDescsFields, hd], by simp [encode_term_fields, he]⟩
      | some t =>
        have hbound : sizeOf t ≤ N - 1 ∧ sizeOf fs2 ≤ N - 1 ∧ N - 1 < N := by
          simp at hsz
          have := field_list_sizeOf_pos fs2
          have := byte_list_sizeOf_pos k
          have := term_sizeOf_pos t
          omega
        have ht := (ih (N - 1) hbound.2.2).1 t hbound.1
        have hfs := (ih (N - 1) hbound.2.2).2.2 fs2 hbound.2.1
        constructor
        · intro h
          simp only [hasOtherFields, Bool.or_eq_false_iff] at h
          obtain ⟨vb, hvb⟩ := ht.1 h.1
          obtain ⟨bs, hbs⟩ := hfs.1 h.2
          refine ⟨natToLeBytes (k.length % 2 ^ 32) 4 ++ k ++ (vb ++ bs), ?_⟩
          simp [encode_term_fields, hvb, hbs]
        · intro h
          simp only [hasOtherFields, Bool.or_eq_true] at h
          cases hcase : hasOther t with
          | true =>
            obtain ⟨d, hd, he⟩ := ht.2 hcase
            refine ⟨d, by simp [otherDescsFields, hd], by simp [encode_term_fields, he]⟩
          | false =>
            obtain ⟨vb, hvb⟩ := ht.1 hcase
            have hfs2 : hasOtherFields fs2 = true := by
              rcases h with h | h
              · rw [hcase] at h
                exact absurd h (by simp)
              · exact h
            obtain ⟨d, hd, he⟩ := hfs.2 hfs2
            refine ⟨d, by simp [otherDescsFields, hd], by simp [encode_term_fields, hvb, he]⟩


theorem mod_u32_eq {n : ℕ} (h : n < 2 ^ 32) : n % 4294967296 = n :=
  Nat.mod_eq_of_lt (by omega)

theorem leBytesToNat_natToLeBytes_len4 {n : ℕ} (h : n < 2 ^ 32) :
    leBytesToNat (natToLeBytes n 4) = n := by
  apply leBytesToNat_natToLeBytes_of_lt
  omega

/-- C3 (amended): for every UTF-8 string value of byte length below
`2^32` — the range in which the `as u32` length cast is lossless — the
binary encoding is tag 4, the 4-byte little-endian byte length, then the
raw bytes with no terminator, and decoding the stream recovers the exact
original byte sequence, consuming the whole stream. -/
theorem c3_string_roundtrip (s : List ℕ) (h : s.length < 2 ^ 32) :
    encode_term (Term.str s) = .ok (4 :: (natToLeBytes s.length 4 ++ s)) ∧
    leBytesToNat (natToLeBytes s.length 4) = s.length ∧
    decodeVal (sizeOf (Term.str s)) (4 :: (natToLeBytes s.length 4 ++ s)) =
      some (.wstr s, []) := by
  have hok : encode_term (Term.str s) = .ok (4 :: (natToLeBytes s.length 4 ++ s)) := by
    simp [encode_term, Nat.mod_eq_of_lt h, mod_u32_eq h]
  refine ⟨hok, leBytesToNat_natToLeBytes_len4 h, ?_⟩
  have hrt := decode_encode_term (sizeOf (Term.str s)) (Term.str s) _ []
    (by simp only [sizeOK, decide_eq_true_eq]; exact h) hok le_rfl
  simpa [toWire] using hrt

/-- C4 (amended): for every sequence of fewer than `2^32` values whose
elements encode successfully (to the chunk list `bss`), the Array
encoding is tag 5, a 4-byte count equal to the sequence length, then the
element encodings concatenated in original order, and decoding yields
the elements' wire values in the original order. -/
theorem c4_array_roundtrip (xs : List Term) (bss : List (List ℕ))
    (h1 : encodeEach xs = .ok bss) (h2 : sizeOK (Term.arr xs) = true) :
    encode_term (Term.arr xs) = .ok (5 :: (natToLeBytes xs.length 4 ++ bss.flatten)) ∧
    leBytesToNat (natToLeBytes xs.length 4) = xs.length ∧
    decodeVal (sizeOf (Term.arr xs)) (5 :: (natToLeBytes xs.length 4 ++ bss.flatten)) =
      some (.warr (xs.map toWire), []) := by
  have hlen : xs.length < 2 ^ 32 := by
    simp only [sizeOK, Bool.and_eq_true, decide_eq_true_eq] at h2
    exact h2.1
  have hok : encode_term (Term.arr xs) =
      .ok (5 :: (natToLeBytes xs.length 4 ++ bss.flatten)) := by
    simp [encode_term, encode_term_list_eq_each, h1, Except.map, Nat.mod_eq_of_lt hlen,
      mod_u32_eq hlen]
  refine ⟨hok, leBytesToNat_natToLeBytes_len4 hlen, ?_⟩
  have hrt := decode_encode_term (sizeOf (Term.arr xs)) (Term.arr xs) _ [] h2 hok le_rfl
  simpa [toWire, toWireList_eq_map] using hrt

/-- C5 (amended): for every field mapping with fewer than `2^32` fields
and keys shorter than `2^32` bytes whose fields encode successfully (to
the chunk list `chunks`), the Record encoding is tag 6, a 4-byte count
equal to the number of fields, then per field a 4-byte key byte length,
the key bytes and the encoded value — a field with no bound value
contributing the single Null tag byte in place of its value — and
decoding recovers every key/value pair in order, valueless fields
decoding as null. -/
theorem c5_record_roundtrip (fs : List (List ℕ × Option Term)) (chunks : List (List ℕ))
    (h1 : encodeFieldEach fs = .ok chunks) (h2 : sizeOK (Term.record fs) = true) :
    encode_term (Term.record fs) = .ok (6 :: (natToLeBytes fs.length 4 ++ chunks.flatten)) ∧
    leBytesToNat (natToLeBytes fs.length 4) = fs.length ∧
    (∀ k : List ℕ, encodeField (k, none) =
      .ok (natToLeBytes (k.length % 2 ^ 32) 4 ++ k ++ [0])) ∧
    decodeVal (sizeOf (Term.record fs)) (6 :: (natToLeBytes fs.length 4 ++ chunks.flatten)) =
      some (.wrec (fs.map fieldWire), []) := by
  have hlen : fs.length < 2 ^ 32 := by
    simp only [sizeOK, Bool.and_eq_true, decide_eq_true_eq] at h2
    exact h2.1
  have hok : encode_term (Term.record fs) =
      .ok (6 :: (natToLeBytes fs.length 4 ++ chunks.flatten)) := by
    simp [encode_term, encode_term_fields_eq_each, h1, Except.map, Nat.mod_eq_of_lt hlen,
      mod_u32_eq hlen]
  refine ⟨hok, leBytesToNat_natToLeBytes_len4 hlen, fun k => rfl, ?_⟩
  have hrt := decode_encode_term (sizeOf (Term.record fs)) (Term.record fs) _ [] h2 hok le_rfl
  simpa [toWire, toWireFields_eq_map] using hrt

/-- C6 (amended): for every enum with a tag name shorter than `2^32`
bytes, the encoding starts with tag 7, the 4-byte tag-name byte length
and the tag-name bytes; a nullary enum tag then ends with the single
flag byte 0 and no further bytes, while a variant carrying an argument
has flag byte 1 immediately followed by the recursive encoding of the
argument; decoding recovers the tag name and (for a variant) the
argument's wire value, consuming the whole stream. -/
theorem c6_enum_layout (tag : List ℕ) (arg : Term) (ab : List ℕ)
    (h1 : tag.length < 2 ^ 32) (h2 : encode_term arg = .ok ab) (h3 : sizeOK arg = true) :
    encode_term (Term.enum tag) = .ok (7 :: (natToLeBytes tag.length 4 ++ tag ++ [0])) ∧
    encode_term (Term.enumVariant tag arg) =
      .ok (7 :: (natToLeBytes tag.length 4 ++ tag ++ 1 :: ab)) ∧
    leBytesToNat (natToLeBytes tag.length 4) = tag.length ∧
    decodeVal (sizeOf (Term.enum tag)) (7 :: (natToLeBytes tag.length 4 ++ tag ++ [0])) =
      some (.wenum tag none, []) ∧
    decodeVal (sizeOf (Term.enumVariant tag arg))
        (7 :: (natToLeBytes tag.length 4 ++ tag ++ 1 :: ab)) =
      some (.wenum tag (some (toWire arg)), []) := by
  have hok1 : encode_term (Term.enum tag) =
      .ok (7 :: (natToLeBytes tag.length 4 ++ tag ++ [0])) := by
    simp [encode_term, Nat.mod_eq_of_lt h1, mod_u32_eq h1]
  have hok2 : encode_term (Term.enumVariant tag arg) =
      .ok (7 :: (natToLeBytes tag.length 4 ++ tag ++ 1 :: ab)) := by
    simp [encode_term, h2, Nat.mod_eq_of_lt h1, mod_u32_eq h1]
  refine ⟨hok1, hok2, leBytesToNat_natToLeBytes_len4 h1, ?_, ?_⟩
  · have hrt := decode_encode_term (sizeOf (Term.enum tag)) (Term.enum tag) _ []
      (by simp only [sizeOK, decide_eq_true_eq]; exact h1) hok1 le_rfl
    simpa [toWire] using hrt
  · have hrt := decode_encode_term (sizeOf (Term.enumVariant tag arg))
      (Term.enumVariant tag arg) _ [] (by simp only [sizeOK, Bool.and_eq_true, decide_eq_true_eq]; exact ⟨h1, h3⟩) hok2 le_rfl
    simpa [toWire] using hrt

/-- C7: every value tree containing a node with no binary encoding rule
(`hasOther`) makes `encode_term` fail as a whole with the
UnsupportedType message naming the debug rendering of an offending
node, and the boundary entry point then returns the null-buffer sentinel
(`none`) — no partially-written buffer — while depositing that message
in the error slot. -/
theorem c7_unsupported_fails (t : Term) (h : hasOther t = true) :
    ∃ d, d ∈ otherDescs t ∧
      encode_term t = .error (unsupported_msg d) ∧
      ∀ (utf8 : Utf8Check) (oracle : EvalOracle) (cb : List ℕ) (s : String)
        (slot : Option String),
        utf8 cb = .ok s → oracle s = .ok t →
        nickel_eval_native utf8 oracle (some cb) slot =
          (none, set_error (unsupported_msg d) slot) := by
  obtain ⟨d, hd, he⟩ := ((encode_hasOther (sizeOf t)).1 t le_rfl).2 h
  refine ⟨d, hd, he, ?_⟩
  intro utf8 oracle cb s slot hu ho
  simp [nickel_eval_native, eval_nickel_native, hu, ho, he, Except.bind]

theorem c7_witness :
    hasOther (Term.arr [Term.null, Term.other "Fun"]) = true ∧
    ∃ d, d ∈ otherDescs (Term.arr [Term.null, Term.other "Fun"]) ∧
      encode_term (Term.arr [Term.null, Term.other "Fun"]) = .error (unsupported_msg d) ∧
      ∀ (utf8 : Utf8Check) (oracle : EvalOracle) (cb : List ℕ) (s : String)
        (slot : Option String),
        utf8 cb = .ok s → oracle s = .ok (Term.arr [Term.null, Term.other "Fun"]) →
        nickel_eval_native utf8 oracle (some cb) slot =
          (none, set_error (unsupported_msg d) slot) :=
  ⟨rfl, c7_unsupported_fails (Term.arr [Term.null, Term.other "Fun"]) rfl⟩

/-- C8: for both entry points, a null source argument (`none`) fails
immediately: the result is the sentinel absence paired with the fixed
null-pointer message — independent of the UTF-8 checker and of either
evaluator oracle, which are never consulted — and that non-empty message
is retrievable through the error accessor. -/
theorem c8_null_source_fails (utf8 : Utf8Check) (oJ : JsonOracle) (oN : EvalOracle)
    (slot : Option String) :
    nickel_eval_string utf8 oJ none slot =
      (none, some "Null pointer passed to nickel_eval_string") ∧
    nickel_eval_native utf8 oN none slot =
      (none, some "Null pointer passed to nickel_eval_native") ∧
    nickel_get_error (some "Null pointer passed to nickel_eval_string") =
      some "Null pointer passed to nickel_eval_string" ∧
    nickel_get_error (some "Null pointer passed to nickel_eval_native") =
      some "Null pointer passed to nickel_eval_native" ∧
    "Null pointer passed to nickel_eval_string" ≠ "" ∧
    "Null pointer passed to nickel_eval_native" ≠ "" := by
  refine ⟨rfl, rfl, rfl, rfl, by decide, by decide⟩

/-- C9: a successful boundary call never modifies the calling thread's
error slot — for both entry points, whenever the returned result is a
real value (`isSome`), the slot after the call is exactly the slot
before it, so a prior failure's message remains observable. -/
theorem c9_success_preserves_error_slot (utf8 : Utf8Check) (oJ : JsonOracle)
    (oN : EvalOracle) (code : Option (List ℕ)) (slot : Option String) :
    ((nickel_eval_string utf8 oJ code slot).1.isSome = true →
      (nickel_eval_string utf8 oJ code slot).2 = slot) ∧
    ((nickel_eval_native utf8 oN code slot).1.isSome = true →
      (nickel_eval_native utf8 oN code slot).2 = slot) := by
  constructor
  · intro h
    cases code with
    | none => simp [nickel_eval_string] at h
    | some bytes =>
      cases hu : utf8 bytes with
      | error e => simp [nickel_eval_string, hu] at h
      | ok s =>
        cases ho : oJ s with
        | error e => simp [nickel_eval_string, hu, ho] at h
        | ok json =>
          by_cases hn : hasNul json = true
          · simp [nickel_eval_string, hu, ho, hn] at h
          · simp [nickel_eval_string, hu, ho, hn]
  · intro h
    cases code with
    | none => simp [nickel_eval_native] at h
    | some bytes =>
      cases hu : utf8 bytes with
      | error e => simp [nickel_eval_native, hu] at h
      | ok s =>
        cases he : eval_nickel_native oN s with
        | error e => simp [nickel_eval_native, hu, he] at h
        | ok buf => simp [nickel_eval_native, hu, he]

theorem c9_witness :
    (nickel_eval_string (fun _ => .ok "1 + 2") (fun _ => .ok "3") (some [49])
        (some "earlier failure")).2 = some "earlier failure" ∧
    (nickel_eval_native (fun _ => .ok "1 + 2") (fun _ => .ok Term.null) (some [49])
        (some "earlier failure")).2 = some "earlier failure" :=
  ⟨(c9_success_preserves_error_slot (fun _ => .ok "1 + 2") (fun _ => .ok "3")
      (fun _ => .ok Term.null) (some [49]) (some "earlier failure")).1 rfl,
    (c9_success_preserves_error_slot (fun _ => .ok "1 + 2") (fun _ => .ok "3")
      (fun _ => .ok Term.null) (some [49]) (some "earlier failure")).2 rfl⟩

/-- C10: when a failure path produces a message containing an interior
NUL, `set_error` stores nothing — `CString::new(msg).ok()` is `none` —
so the thread's slot is reset to empty (erasing any previously stored
message) and the error accessor returns the null sentinel after such a
failing call. -/
theorem c10_nul_message_clears_slot (slot : Option String) (msg : String)
    (h : hasNul msg = true) :
    set_error msg slot = none ∧
    nickel_get_error (set_error msg slot) = none ∧
    ∀ (utf8 : Utf8Check) (oracle : EvalOracle) (cb : List ℕ) (s : String),
      utf8 cb = .ok s → oracle s = .error msg →
      nickel_eval_native utf8 oracle (some cb) slot = (none, none) := by
  have h1 : set_error msg slot = none := by simp [set_error, cstringNew, h]
  refine ⟨h1, by simp [nickel_get_error, h1], ?_⟩
  intro utf8 oracle cb s hu ho
  simp [nickel_eval_native, eval_nickel_native, hu, ho, Except.bind, set_error, cstringNew, h]

theorem c10_witness :
    hasNul "bad\x00message" = true ∧
    set_error "bad\x00message" (some "old error") = none ∧
    nickel_get_error (set_error "bad\x00message" (some "old error")) = none ∧
    nickel_eval_native (fun _ => .ok "src") (fun _ => .error "bad\x00message")
      (some [49]) (some "old error") = (none, none) :=
  ⟨by decide,
    (c10_nul_message_clears_slot (some "old error") "bad\x00message" (by decide)).1,
    (c10_nul_message_clears_slot (some "old error") "bad\x00message" (by decide)).2.1,
    (c10_nul_message_clears_slot (some "old error") "bad\x00message" (by decide)).2.2
      (fun _ => .ok "src") (fun _ => .error "bad\x00message") [49] "src" rfl rfl⟩

/-! ## The remaining claims -/

/-- C1 (code bug): the claim — and the spec's narrowing policy — says a
rounded double outside the signed 64-bit range is always emitted as tag
3 (Float), never as tag 2 (Int).  The code's range test compares against
`i64::MAX as f64`, which rounds `2^63 - 1` up to `2^63`, so the Number
`2^63` — whose nearest double is exactly `2^63`, one past the signed
64-bit maximum — passes the test and is emitted as tag 2 (Int) carrying
the saturated integer `2^63 - 1`: a value different from the number
being encoded, where the Float encoding would have been exact.  The
theorem evaluates the model at the failing input. -/
theorem c1_i64_boundary_saturation :
    roundF64 (9223372036854775808 : ℚ) = i64_max_as_f64 ∧
    f64_as_int (roundF64 (9223372036854775808 : ℚ)) = some (2 ^ 63) ∧
    encode_term (Term.num (9223372036854775808 : ℚ)) =
      .ok (2 :: i64_to_le_bytes (2 ^ 63 - 1)) := by
  decide

/-- C2 counterexample: the value `2^53 + 1` is exactly a 64-bit signed
integer, but its nearest double is `2^53`, so the encoder emits tag 2
with the bytes of `2^53`, not of `2^53 + 1`, and decoding the payload
does not recover the original integer. -/
theorem c2_counterexample :
    encode_term (Term.num (9007199254740993 : ℚ)) =
      .ok (2 :: i64_to_le_bytes 9007199254740992) ∧
    encode_term (Term.num (9007199254740993 : ℚ)) ≠
      .ok (2 :: i64_to_le_bytes 9007199254740993) ∧
    le_bytes_to_i64 (i64_to_le_bytes 9007199254740992) ≠ (9007199254740993 : ℤ) := by
  decide

/-- C2 (amended): for every 64-bit signed integer `n` that is exactly
representable as a double (its round-to-nearest double is exactly `n`),
binary encoding produces tag 2 (Int) followed by the 8-byte
little-endian two's-complement representation of `n`, and decoding those
8 bytes as a little-endian signed 64-bit integer recovers `n`
exactly. -/
theorem c2_int_exact_roundtrip (n : ℤ) (h1 : -(2 ^ 63) ≤ n) (h2 : n < 2 ^ 63)
    (h3 : f64_as_int (roundF64 (n : ℚ)) = some n) :
    encode_term (Term.num (n : ℚ)) = .ok (2 :: i64_to_le_bytes n) ∧
    le_bytes_to_i64 (i64_to_le_bytes n) = n :=
  ⟨encode_num_int n h1 h2 h3, le_bytes_to_i64_roundtrip n h1 h2⟩

theorem c2_int_exact_roundtrip_witness :
    encode_term (Term.num ((42 : ℤ) : ℚ)) = .ok (2 :: i64_to_le_bytes 42) ∧
    le_bytes_to_i64 (i64_to_le_bytes 42) = 42 :=
  c2_int_exact_roundtrip 42 (by decide) (by decide) (by decide)

/-- C3 counterexample: a string of `2^32` bytes.  Its `as u32` length
cast wraps to zero, so the emitted 4-byte length field is `[0,0,0,0]`,
which does not decode to the byte length of the string — the claim's
"4-byte little-endian length equal to the byte length" fails. -/
theorem c3_counterexample :
    encode_term (Term.str (List.replicate (2 ^ 32) 97)) =
      .ok (4 :: ([0, 0, 0, 0] ++ List.replicate (2 ^ 32) 97)) ∧
    leBytesToNat [0, 0, 0, 0] ≠ (List.replicate (2 ^ 32) (97 : ℕ)).length := by
  constructor
  · have key : ∀ s : List ℕ, s.length = 2 ^ 32 →
        encode_term (Term.str s) = .ok (4 :: ([0, 0, 0, 0] ++ s)) := by
      intro s hs
      simp [encode_term, hs, natToLeBytes]
    exact key _ (List.length_replicate _ _)
  · rw [List.length_replicate]
    decide

theorem c3_string_roundtrip_witness :
    encode_term (Term.str [104, 105]) =
      .ok (4 :: (natToLeBytes [104, 105].length 4 ++ [104, 105])) ∧
    leBytesToNat (natToLeBytes [104, 105].length 4) = [104, 105].length ∧
    decodeVal (sizeOf (Term.str [104, 105]))
        (4 :: (natToLeBytes [104, 105].length 4 ++ [104, 105])) =
      some (.wstr [104, 105], []) :=
  c3_string_roundtrip [104, 105] (by decide)

/-- Helper for the C4 counterexample: an array of nulls encodes to one
Null tag byte per element. -/
theorem encode_term_list_nulls (n : ℕ) :
    encode_term_list (List.replicate n Term.null) = .ok (List.replicate n (0 : ℕ)) := by
  induction n with
  | zero => rfl
  | succ n ih => simp [List.replicate_succ, encode_term_list, encode_term, ih]

/-- C4 counterexample: an array of `2^32` elements.  Its `as u32` count
cast wraps to zero, so the emitted 4-byte count field is `[0,0,0,0]`,
which does not decode to the sequence length. -/
theorem c4_counterexample :
    encode_term (Term.arr (List.replicate (2 ^ 32) Term.null)) =
      .ok (5 :: ([0, 0, 0, 0] ++ List.replicate (2 ^ 32) 0)) ∧
    leBytesToNat [0, 0, 0, 0] ≠ (List.replicate (2 ^ 32) Term.null).length := by
  constructor
  · have key : ∀ (xs : List Term) (body : List ℕ), encode_term_list xs = .ok body →
        xs.length = 2 ^ 32 →
        encode_term (Term.arr xs) = .ok (5 :: ([0, 0, 0, 0] ++ body)) := by
      intro xs body hb hs
      simp [encode_term, hb, hs, natToLeBytes]
    exact key _ _ (encode_term_list_nulls (2 ^ 32)) (List.length_replicate _ _)
  · rw [List.length_replicate]
    decide

theorem c4_array_roundtrip_witness :
    encode_term (Term.arr [Term.null, Term.bool true]) =
      .ok (5 :: (natToLeBytes [Term.null, Term.bool true].length 4 ++
        [[0], [1, 1]].flatten)) ∧
    leBytesToNat (natToLeBytes [Term.null, Term.bool true].length 4) =
      [Term.null, Term.bool true].length ∧
    decodeVal (sizeOf (Term.arr [Term.null, Term.bool true]))
        (5 :: (natToLeBytes [Term.null, Term.bool true].length 4 ++
          [[0], [1, 1]].flatten)) =
      some (.warr ([Term.null, Term.bool true].map toWire), []) :=
  c4_array_roundtrip [Term.null, Term.bool true] [[0], [1, 1]] (by decide) (by decide)

/-- C5 counterexample: a record with one field whose key is `2^32` bytes
long.  The key-length `as u32` cast wraps to zero, so the emitted 4-byte
key byte-length field is `[0,0,0,0]`, which does not decode to the key's
byte length. -/
theorem c5_counterexample :
    encode_term (Term.record [(List.replicate (2 ^ 32) 107, none)]) =
      .ok (6 :: ([1, 0, 0, 0] ++ ([0, 0, 0, 0] ++ (List.replicate (2 ^ 32) 107 ++ [0])))) ∧
    leBytesToNat [0, 0, 0, 0] ≠ (List.replicate (2 ^ 32) (107 : ℕ)).length := by
  constructor
  · have key : ∀ k : List ℕ, k.length = 2 ^ 32 →
        encode_term (Term.record [(k, none)]) =
          .ok (6 :: ([1, 0, 0, 0] ++ ([0, 0, 0, 0] ++ (k ++ [0])))) := by
      intro k hs
      simp [encode_term, encode_term_fields, hs, natToLeBytes]
    exact key _ (List.length_replicate _ _)
  · rw [List.length_replicate]
    decide

theorem c5_record_roundtrip_witness :
    encode_term (Term.record [([120], some (Term.bool false)), ([121], none)]) =
      .ok (6 :: (natToLeBytes [([120], some (Term.bool false)), ([121], none)].length 4 ++
        [[1, 0, 0, 0, 120, 1, 0], [1, 0, 0, 0, 121, 0]].flatten)) ∧
    leBytesToNat (natToLeBytes [([120], some (Term.bool false)), ([121], none)].length 4) =
      [([120], some (Term.bool false)), ([121], none)].length ∧
    (∀ k : List ℕ, encodeField (k, none) =
      .ok (natToLeBytes (k.length % 2 ^ 32) 4 ++ k ++ [0])) ∧
    decodeVal (sizeOf (Term.record [([120], some (Term.bool false)), ([121], none)]))
        (6 :: (natToLeBytes [([120], some (Term.bool false)), ([121], none)].length 4 ++
          [[1, 0, 0, 0, 120, 1, 0], [1, 0, 0, 0, 121, 0]].flatten)) =
      some (.wrec ([([120], some (Term.bool false)), ([121], none)].map fieldWire), []) :=
  c5_record_roundtrip [([120], some (Term.bool false)), ([121], none)]
    [[1, 0, 0, 0, 120, 1, 0], [1, 0, 0, 0, 121, 0]] (by decide) (by decide)

/-- C6 counterexample: an enum whose tag name is `2^32` bytes long.  The
tag-name-length `as u32` cast wraps to zero, so the emitted 4-byte
tag-name byte-length field is `[0,0,0,0]`, which does not decode to the
tag name's byte length. -/
theorem c6_counterexample :
    encode_term (Term.enum (List.replicate (2 ^ 32) 65)) =
      .ok (7 :: ([0, 0, 0, 0] ++ (List.replicate (2 ^ 32) 65 ++ [0]))) ∧
    leBytesToNat [0, 0, 0, 0] ≠ (List.replicate (2 ^ 32) (65 : ℕ)).length := by
  constructor
  · have key : ∀ tag : List ℕ, tag.length = 2 ^ 32 →
        encode_term (Term.enum tag) = .ok (7 :: ([0, 0, 0, 0] ++ (tag ++ [0]))) := by
      intro tag hs
      simp [encode_term, hs, natToLeBytes]
    exact key _ (List.length_replicate _ _)
  · rw [List.length_replicate]
    decide

theorem c6_enum_layout_witness :
    encode_term (Term.enum [83, 111, 109, 101]) =
      .ok (7 :: (natToLeBytes [83, 111, 109, 101].length 4 ++ [83, 111, 109, 101] ++ [0])) ∧
    encode_term (Term.enumVariant [83, 111, 109, 101] (Term.bool true)) =
      .ok (7 :: (natToLeBytes [83, 111, 109, 101].length 4 ++ [83, 111, 109, 101] ++
        1 :: [1, 1])) ∧
    leBytesToNat (natToLeBytes [83, 111, 109, 101].length 4) = [83, 111, 109, 101].length ∧
    decodeVal (sizeOf (Term.enum [83, 111, 109, 101]))
        (7 :: (natToLeBytes [83, 111, 109, 101].length 4 ++ [83, 111, 109, 101] ++ [0])) =
      some (.wenum [83, 111, 109, 101] none, []) ∧
    decodeVal (sizeOf (Term.enumVariant [83, 111, 109, 101] (Term.bool true)))
        (7 :: (natToLeBytes [83, 111, 109, 101].length 4 ++ [83, 111, 109, 101] ++
          1 :: [1, 1])) =
      some (.wenum [83, 111, 109, 101] (some (toWire (Term.bool true))), []) :=
  c6_enum_layout [83, 111, 109, 101] (Term.bool true) [1, 1] (by decide) (by decide)
    (by decide)
